import Mathlib

/-!
Verification of the fee/price reconciliation engine of
`simulateur_frais_plateformes_streamlit.py`.

Python floats are embedded as exact rationals (`ℚ`); the tolerance
constants `1e-9` / `1e-12` of the source become the exact rationals
`1/10^9` / `1/10^12`.  Python's `float` division raises
`ZeroDivisionError` on a zero divisor, so fallible computations return
`Except PyErr`; the `float("inf")` sentinel of the fixed-fee inverse is
a constructor of `FloatVal`.
-/

namespace Simulateur

/-- Embedded `FeeMode = Literal["percentage", "fixed"]`. -/
inductive FeeMode where
  | percentage
  | fixed
deriving DecidableEq, Repr

/-- The `Platform` dataclass: one platform's commercial terms. -/
structure Platform where
  name : String
  host_commission_pct : ℚ
  client_fee_mode : FeeMode
  client_fee_value : ℚ
  client_fee_floor_eur : ℚ := 0
  client_fee_cap_eur : Option ℚ := none
deriving DecidableEq, Repr

/-- Embedded `Platform.client_fee_amount`: client fee in € for a sale price.
Percentage mode computes `sale_price * value/100`, applies the floor with
`max`, then the cap (when present) with `min`; fixed mode returns the
constant `client_fee_value`. -/
def Platform.client_fee_amount (p : Platform) (sale_price : ℚ) : ℚ :=
  match p.client_fee_mode with
  | .percentage =>
      let pct_val := sale_price * (p.client_fee_value / 100)
      let fee := max pct_val p.client_fee_floor_eur
      match p.client_fee_cap_eur with
      | some cap => min fee cap
      | none => fee
  | .fixed => p.client_fee_value

/-- Embedded `Platform.base_before_client_fees`. -/
def Platform.base_before_client_fees (p : Platform) (sale_price : ℚ) : ℚ :=
  sale_price - p.client_fee_amount sale_price

/-- Embedded `Platform.host_net`: `base * (1 - host_commission_pct/100)`. -/
def Platform.host_net (p : Platform) (sale_price : ℚ) : ℚ :=
  p.base_before_client_fees sale_price * (1 - p.host_commission_pct / 100)

/-- Python runtime errors the embedded code can raise. -/
inductive PyErr where
  | zeroDivision
deriving DecidableEq, Repr

/-- A Python float value as returned by the engine: a finite rational,
one of the two infinities, or NaN. -/
inductive FloatVal where
  | fin (q : ℚ)
  | inf
  | ninf
  | nan
deriving DecidableEq, Repr

/-- The source's `1e-9` consistency tolerance. -/
def eps9 : ℚ := 1 / 10 ^ 9

/-- The source's `1e-12` denominator replacement. -/
def eps12 : ℚ := 1 / 10 ^ 12

/-- Python `min(iterable, default=d)`: minimum of a nonempty list, else `d`. -/
def minD (l : List ℚ) (d : ℚ) : ℚ :=
  match l with
  | [] => d
  | x :: xs => xs.foldl min x

/-- Floor-active candidate `P_floor = N / (1 - h) + floor`. -/
def pfloorCand (N h lo : ℚ) : ℚ := N / (1 - h) + lo

/-- Cap-active candidate `P_cap = N / (1 - h) + cap`. -/
def pcapCand (N h c : ℚ) : ℚ := N / (1 - h) + c

/-- The proportional branch's denominator `(1-cp)*(1-h)`, replaced by
`1e-12` when `≤ 0`, as in the source. -/
def pctDenom (h cp : ℚ) : ℚ :=
  let d := (1 - cp) * (1 - h)
  if d ≤ 0 then eps12 else d

/-- Proportional candidate `P_pct = N / denom`. -/
def ppctCand (N h cp : ℚ) : ℚ := N / pctDenom h cp

/-- The `candidates` list built by `_solve_price_from_net_percentage`,
in source order: floor candidate, cap candidate (when a cap is set),
proportional candidate, each guarded by its consistency check. -/
def pctCandidates (N h cp lo : ℚ) (cap : Option ℚ) : List ℚ :=
  let l1 := if cp * pfloorCand N h lo ≤ lo + eps9 then [pfloorCand N h lo] else []
  let l2 := match cap with
    | none => l1
    | some c => if c - eps9 ≤ cp * pcapCand N h c then l1 ++ [pcapCand N h c] else l1
  let okLow : Bool := decide (lo - eps9 ≤ cp * ppctCand N h cp)
  let okHigh : Bool := match cap with
    | none => true
    | some c => decide (cp * ppctCand N h cp ≤ c + eps9)
  if okLow && okHigh then l2 ++ [ppctCand N h cp] else l2

/-- The value returned by `_solve_price_from_net_percentage` once past the
divisions: `min(candidates, default=max(P_floor, P_pct))`. -/
def solvePctCore (N h cp lo : ℚ) (cap : Option ℚ) : ℚ :=
  minD (pctCandidates N h cp lo cap) (max (pfloorCand N h lo) (ppctCand N h cp))

/-- Embedded `_solve_price_from_net_percentage`: its first statement divides by
`1 - h`, so `h = 1` raises `ZeroDivisionError`; otherwise every division
is defined (the proportional denominator is guarded) and the minimal
consistent candidate is returned. -/
def solve_price_from_net_percentage (N h cp lo : ℚ) (cap : Option ℚ) :
    Except PyErr ℚ :=
  if 1 - h = 0 then .error .zeroDivision
  else .ok (solvePctCore N h cp lo cap)

/-- Embedded `price_from_net`: inverse of the forward computation.  In fixed mode
`P = f + N/(1-h)` when `1-h ≠ 0`, else the `float("inf")` sentinel. -/
def price_from_net (p : Platform) (net : ℚ) : Except PyErr FloatVal :=
  let h := p.host_commission_pct / 100
  match p.client_fee_mode with
  | .percentage =>
      (solve_price_from_net_percentage net h (p.client_fee_value / 100)
        p.client_fee_floor_eur p.client_fee_cap_eur).map .fin
  | .fixed =>
      if 1 - h = 0 then .ok .inf
      else .ok (.fin (p.client_fee_value + net / (1 - h)))

/-- The full breakdown of one `(Platform, price)` pair, with the fields of
the spec's `PriceBreakdown` computed by the forward formulas of
`compute_table` (`client_fee`, `base`, `host_fee_eur`, `net`). -/
structure PriceBreakdown where
  publicPrice : ℚ
  clientFee : ℚ
  baseBeforeClientFee : ℚ
  hostCommissionAmount : ℚ
  netHostPayout : ℚ
  globalFees : ℚ
deriving DecidableEq, Repr

/-- Forward calculator: derives the whole breakdown from a price. -/
def forward (p : Platform) (P : ℚ) : PriceBreakdown :=
  let client_fee := p.client_fee_amount P
  let base := P - client_fee
  let host_fee := base * (p.host_commission_pct / 100)
  { publicPrice := P
    clientFee := client_fee
    baseBeforeClientFee := base
    hostCommissionAmount := host_fee
    netHostPayout := base - host_fee
    globalFees := P - (base - host_fee) }

/-- Python `a < b` on float values: every comparison with NaN is false. -/
def fvLt : FloatVal → FloatVal → Bool
  | .fin a, .fin b => decide (a < b)
  | .fin _, .inf => true
  | .ninf, .fin _ => true
  | .ninf, .inf => true
  | _, _ => false

/-- Python `max(a, b)`: returns `b` exactly when `b > a`. -/
def pymax (a b : FloatVal) : FloatVal := if fvLt a b then b else a

/-- Python `min(a, b)`: returns `b` exactly when `b < a`. -/
def pymin (a b : FloatVal) : FloatVal := if fvLt b a then b else a

/-- IEEE/Python subtraction on float values. -/
def fvSub : FloatVal → FloatVal → FloatVal
  | .fin a, .fin b => .fin (a - b)
  | .fin _, .inf => .ninf
  | .fin _, .ninf => .inf
  | .inf, .fin _ => .inf
  | .inf, .ninf => .inf
  | .ninf, .fin _ => .ninf
  | .ninf, .inf => .ninf
  | _, _ => .nan

/-- IEEE/Python multiplication of a float value by a finite rational. -/
def fvMulQ (a : FloatVal) (c : ℚ) : FloatVal :=
  match a with
  | .fin q => .fin (q * c)
  | .inf => if 0 < c then .inf else if c < 0 then .ninf else .nan
  | .ninf => if 0 < c then .ninf else if c < 0 then .inf else .nan
  | .nan => .nan

/-- Python `round(x, 2)`: round to 2 decimal places, ties to even. -/
def pyRound2 (x : ℚ) : ℚ :=
  let y := x * 100
  let f := ⌊y⌋
  let r := y - f
  let n : ℤ := if r < 1 / 2 then f else if 1 / 2 < r then f + 1
    else if f % 2 = 0 then f else f + 1
  (n : ℚ) / 100

/-- Python `round(x, 2)` lifted to float values (`round(inf, 2) = inf`, etc.). -/
def pyRound2V : FloatVal → FloatVal
  | .fin q => .fin (pyRound2 q)
  | .inf => .inf
  | .ninf => .ninf
  | .nan => .nan

/-- Embedded `Platform.client_fee_amount` at a float-valued sale price,
as `compute_table` does after a net-mode inversion: same clamp logic,
with Python `max`/`min` semantics on non-finite values. -/
def Platform.client_fee_amountV (p : Platform) (sale_price : FloatVal) : FloatVal :=
  match p.client_fee_mode with
  | .percentage =>
      let pct_val := fvMulQ sale_price (p.client_fee_value / 100)
      let fee := pymax pct_val (.fin p.client_fee_floor_eur)
      match p.client_fee_cap_eur with
      | some cap => pymin fee (.fin cap)
      | none => fee
  | .fixed => .fin p.client_fee_value

/-- The two input methods of the sidebar. -/
inductive InputMode where
  | price_client
  | net_host
deriving DecidableEq, Repr

/-- One row of the comparison table: the platform name plus the four
numeric columns (the two method-description strings of the source are
presentation text reproduced verbatim from the model's fields and are
not part of any claim). -/
structure RowV where
  name : String
  clientFee : FloatVal
  hostFee : FloatVal
  net : FloatVal
  price : FloatVal
deriving DecidableEq, Repr

/-- The per-platform body of the `compute_table` loop once the public
price `P` is resolved: fee, base, commission, net, each rounded to two
decimals in the emitted row. -/
def computeRowV (p : Platform) (P : FloatVal) : RowV :=
  let h := p.host_commission_pct / 100
  let client_fee := p.client_fee_amountV P
  let base := fvSub P client_fee
  let host_fee := fvMulQ base h
  let net := fvSub base host_fee
  { name := p.name
    clientFee := pyRound2V client_fee
    hostFee := pyRound2V host_fee
    net := pyRound2V net
    price := pyRound2V P }

/-- Price resolution of `compute_table`: the input value itself in
price mode, `price_from_net` in net mode. -/
def resolveP (p : Platform) (mode : InputMode) (v : ℚ) : Except PyErr FloatVal :=
  match mode with
  | .price_client => .ok (.fin v)
  | .net_host => price_from_net p v

/-- Character-list version of `str.startswith`. -/
def listStarts : List Char → List Char → Bool
  | [], _ => true
  | _ :: _, [] => false
  | a :: asr, b :: bs => a == b && listStarts asr bs

/-- Predicate `name.lower().startswith("gîtes de france")` used to
move the GDF row to the head of the table. -/
def isGdfName (s : String) : Bool :=
  listStarts "gîtes de france".data (s.data.map Char.toLower)

/-- The row-building loop of `compute_table`, in input order; a raised
`ZeroDivisionError` aborts the whole table as in Python. -/
def buildRows (platforms : List Platform) (mode : InputMode) (v : ℚ) :
    Except PyErr (List RowV) :=
  match platforms with
  | [] => .ok []
  | p :: rest =>
      match resolveP p mode v with
      | .error e => .error e
      | .ok P =>
          match buildRows rest mode v with
          | .error e => .error e
          | .ok rows => .ok (computeRowV p P :: rows)

/-- Embedded `compute_table`: builds the rows then stably moves the rows whose
platform name starts with "gîtes de france" (lowercased) to the front. -/
def compute_table (platforms : List Platform) (mode : InputMode) (v : ℚ) :
    Except PyErr (List RowV) :=
  match buildRows platforms mode v with
  | .error e => .error e
  | .ok rows =>
      .ok (rows.filter (fun r => isGdfName r.name) ++
           rows.filter (fun r => !isGdfName r.name))

instance {ε α : Type} [DecidableEq ε] [DecidableEq α] :
    DecidableEq (Except ε α) := fun a b =>
  match a, b with
  | .error e₁, .error e₂ =>
      if h : e₁ = e₂ then .isTrue (by rw [h])
      else .isFalse (fun hc => h (Except.error.inj hc))
  | .error _, .ok _ => .isFalse (fun hc => Except.noConfusion hc)
  | .ok _, .error _ => .isFalse (fun hc => Except.noConfusion hc)
  | .ok v₁, .ok v₂ =>
      if h : v₁ = v₂ then .isTrue (by rw [h])
      else .isFalse (fun hc => h (Except.ok.inj hc))

/-- The clamp as the specification words it: `clamp(raw, floor, cap)`
with `cap = +∞` (no upper clamp) when absent. -/
def clampSpec (raw lo : ℚ) (cap : Option ℚ) : ℚ :=
  match cap with
  | none => max raw lo
  | some c => min (max raw lo) c

/-- The percentage-mode inverse selection exactly as the claim words it:
floor candidate `N/(1-h)+floor`, cap candidate `N/(1-h)+cap`,
proportional candidate `N/((1-cp)(1-h))` (no denominator guard), each
with its tolerance check; smallest accepted candidate, else the maximum
of the floor and proportional candidates. -/
def specSolvePct (N h cp lo : ℚ) (cap : Option ℚ) : ℚ :=
  let Pf := N / (1 - h) + lo
  let Pp := N / ((1 - cp) * (1 - h))
  let l1 := if cp * Pf ≤ lo + eps9 then [Pf] else []
  let l2 := match cap with
    | none => l1
    | some c => if c - eps9 ≤ cp * (N / (1 - h) + c) then l1 ++ [N / (1 - h) + c] else l1
  let okLow : Bool := decide (lo - eps9 ≤ cp * Pp)
  let okHigh : Bool := match cap with
    | none => true
    | some c => decide (cp * Pp ≤ c + eps9)
  minD (if okLow && okHigh then l2 ++ [Pp] else l2) (max Pf Pp)

/-- The source's default GDF platform: 8% host commission, fixed 6€
client fee. -/
def GDF_DEFAULT : Platform :=
  { name := "Gîtes de France"
    host_commission_pct := 8
    client_fee_mode := .fixed
    client_fee_value := 6 }

/-- One of the source's frozen platforms (`Booking.com`). -/
def bookingCom : Platform :=
  { name := "Booking.com"
    host_commission_pct := 17
    client_fee_mode := .percentage
    client_fee_value := 0 }

/-- The floor/cap percentage platform family used in examples: 10% fee,
5€ floor, 40€ cap, 8% commission. -/
def floorCapModel : Platform :=
  { name := "FloorCap"
    host_commission_pct := 8
    client_fee_mode := .percentage
    client_fee_value := 10
    client_fee_floor_eur := 5
    client_fee_cap_eur := some 40 }

/-! Helper lemmas about Python `min`/`max`. -/

theorem foldl_min_choice (xs : List ℚ) (a : ℚ) :
    xs.foldl min a = a ∨ xs.foldl min a ∈ xs := by
  induction xs generalizing a with
  | nil => exact Or.inl rfl
  | cons x xs ih =>
      rw [List.foldl_cons]
      rcases ih (min a x) with h | h
      · rcases min_choice a x with hm | hm
        · exact Or.inl (h.trans hm)
        · exact Or.inr (by rw [h, hm]; exact List.mem_cons_self _ _)
      · exact Or.inr (List.mem_cons_of_mem _ h)

theorem foldl_min_le_init (xs : List ℚ) (a : ℚ) : xs.foldl min a ≤ a := by
  induction xs generalizing a with
  | nil => exact le_refl a
  | cons x xs ih =>
      rw [List.foldl_cons]
      exact le_trans (ih (min a x)) (min_le_left a x)

theorem foldl_min_le_mem {xs : List ℚ} {x : ℚ} (h : x ∈ xs) (a : ℚ) :
    xs.foldl min a ≤ x := by
  induction xs generalizing a with
  | nil => cases h
  | cons y ys ih =>
      rw [List.foldl_cons]
      rcases List.mem_cons.mp h with rfl | h'
      · exact le_trans (foldl_min_le_init ys (min a x)) (min_le_right a x)
      · exact ih h' (min a y)

theorem minD_mem {l : List ℚ} (hl : l ≠ []) (d : ℚ) : minD l d ∈ l := by
  match l with
  | [] => exact absurd rfl hl
  | x :: xs =>
      rcases foldl_min_choice xs x with h | h
      · rw [minD, h]; exact List.mem_cons_self _ _
      · rw [minD]; exact List.mem_cons_of_mem _ h

theorem minD_le_of_mem {l : List ℚ} {x : ℚ} (h : x ∈ l) (d : ℚ) :
    minD l d ≤ x := by
  match l with
  | y :: ys =>
      rcases List.mem_cons.mp h with rfl | h'
      · exact foldl_min_le_init ys x
      · exact foldl_min_le_mem h' y

theorem pymax_fin (a b : ℚ) : pymax (.fin a) (.fin b) = .fin (max a b) := by
  by_cases h : a < b
  · simp [pymax, fvLt, h, max_eq_right h.le]
  · simp [pymax, fvLt, h, max_eq_left (le_of_not_lt h)]

theorem pymin_fin (a b : ℚ) : pymin (.fin a) (.fin b) = .fin (min a b) := by
  by_cases h : b < a
  · simp [pymin, fvLt, h, min_eq_right h.le]
  · simp [pymin, fvLt, h, min_eq_left (le_of_not_lt h)]

theorem client_fee_amountV_fin (p : Platform) (q : ℚ) :
    p.client_fee_amountV (.fin q) = .fin (p.client_fee_amount q) := by
  cases hm : p.client_fee_mode <;> cases hc : p.client_fee_cap_eur <;>
    simp [Platform.client_fee_amountV, Platform.client_fee_amount, hm, hc,
      fvMulQ, pymax_fin, pymin_fin]

/-- C3: forward conservation — for every fee model and every price
`P ≥ 0`, the breakdown satisfies
`netHostPayout + hostCommissionAmount + clientFee = P` within `1e-6`
(in the exact-rational embedding the identity is exact). -/
theorem C3_forward_conservation (p : Platform) (P : ℚ) (hP : 0 ≤ P) :
    |(forward p P).netHostPayout + (forward p P).hostCommissionAmount +
      (forward p P).clientFee - P| ≤ 1 / 1000000 := by
  have h0 : (forward p P).netHostPayout + (forward p P).hostCommissionAmount +
      (forward p P).clientFee - P = 0 := by
    simp only [forward]
    ring
  rw [h0]
  norm_num

theorem C3_forward_conservation_witness :
    (0 : ℚ) ≤ 1000 ∧
    |(forward GDF_DEFAULT 1000).netHostPayout +
      (forward GDF_DEFAULT 1000).hostCommissionAmount +
      (forward GDF_DEFAULT 1000).clientFee - 1000| ≤ 1 / 1000000 :=
  ⟨by norm_num, C3_forward_conservation GDF_DEFAULT 1000 (by norm_num)⟩

/-- C4: the claim says `priceFromNet` never raises for any model with
`hostCommissionPct ∈ [0,100]`; the spec is the intent, but the code's
percentage branch divides by `1 - h` unguarded when building the
floor-active candidate, so a percentage-mode model with
`hostCommissionPct = 100` raises `ZeroDivisionError`. -/
theorem C4_percentage_h100_zero_division :
    price_from_net ⟨"X", 100, .percentage, 10, 0, none⟩ 850 =
      .error .zeroDivision := by
  norm_num [price_from_net, solve_price_from_net_percentage, Except.map]

/-- C5: fixed-fee inverse — with `hostCommissionPct = 100` the solver
returns the `float("inf")` sentinel (never NaN or garbage); otherwise it
returns `clientFeeValue + net / (1 - hostCommissionPct/100)`. -/
theorem C5_fixed_inverse (p : Platform) (net : ℚ)
    (hm : p.client_fee_mode = .fixed) :
    (p.host_commission_pct = 100 → price_from_net p net = .ok .inf) ∧
    (p.host_commission_pct ≠ 100 →
      price_from_net p net =
        .ok (.fin (p.client_fee_value + net / (1 - p.host_commission_pct / 100)))) := by
  constructor
  · intro h100
    simp [price_from_net, hm, h100]
  · intro hne
    have hden : (1 : ℚ) - p.host_commission_pct / 100 ≠ 0 := by
      intro h
      apply hne
      have : p.host_commission_pct / 100 = 1 := by linarith
      field_simp at this
      linarith
    simp [price_from_net, hm, hden]

theorem C5_fixed_inverse_witness :
    price_from_net ⟨"X", 100, .fixed, 6, 0, none⟩ 850 = .ok .inf ∧
    price_from_net GDF_DEFAULT 850 = .ok (.fin (6 + 850 / (1 - 8 / 100))) :=
  ⟨(C5_fixed_inverse ⟨"X", 100, .fixed, 6, 0, none⟩ 850 rfl).1 rfl,
   (C5_fixed_inverse GDF_DEFAULT 850 rfl).2 (by norm_num [GDF_DEFAULT])⟩

/-- C6: client fee contract — fixed mode returns `clientFeeValue`
regardless of price; percentage mode returns
`clamp(price * clientFeeValue/100, floor, cap)` with the cap absent
meaning no upper clamp. -/
theorem C6_client_fee_contract (p : Platform) (P : ℚ) :
    p.client_fee_amount P =
      match p.client_fee_mode with
      | .fixed => p.client_fee_value
      | .percentage =>
          clampSpec (P * (p.client_fee_value / 100)) p.client_fee_floor_eur
            p.client_fee_cap_eur := by
  cases hm : p.client_fee_mode <;> cases hc : p.client_fee_cap_eur <;>
    simp [Platform.client_fee_amount, clampSpec, hm, hc]

/-- C10: when a percentage model is malformed with `floor > cap`, the
floor is applied first and the cap second, so the fee is always the cap. -/
theorem C10_cap_wins (p : Platform) (P c : ℚ)
    (hm : p.client_fee_mode = .percentage)
    (hc : p.client_fee_cap_eur = some c)
    (hlt : c < p.client_fee_floor_eur) :
    p.client_fee_amount P = c := by
  simp only [Platform.client_fee_amount, hm, hc]
  exact min_eq_right (le_trans hlt.le (le_max_right _ _))

theorem C10_cap_wins_witness :
    Platform.client_fee_amount ⟨"F", 8, .percentage, 10, 10, some 5⟩ 100 = 5 :=
  C10_cap_wins ⟨"F", 8, .percentage, 10, 10, some 5⟩ 100 5 rfl rfl (by norm_num)

/-- C2 counterexample: at `N = 1`, `h = 0`, `cp = 2`, `floor = 0`, no
cap, the proportional denominator `(1-cp)(1-h) = -1` is replaced by
`1e-12` in the code, so the candidate is `10^12` (and it passes the
lower check), while the claim's description (candidate `N/((1-cp)(1-h))`)
selects `1`. -/
theorem C2_counterexample :
    solve_price_from_net_percentage 1 0 2 0 none ≠
      .ok (specSolvePct 1 0 2 0 none) := by
  have h1 : solve_price_from_net_percentage 1 0 2 0 none = .ok ((10 : ℚ) ^ 12) := by
    norm_num [solve_price_from_net_percentage, solvePctCore, pctCandidates,
      pfloorCand, ppctCand, pctDenom, eps9, eps12, minD]
  have h2 : specSolvePct 1 0 2 0 none = 1 := by
    norm_num [specSolvePct, eps9, minD]
  rw [h1, h2]
  intro hc
  have h3 := Except.ok.inj hc
  norm_num at h3

/-- C2: percentage-mode inverse regime selection — whenever the
proportional denominator `(1-cp)(1-h)` is positive (so no epsilon
substitution and no zero divisor), the solver returns exactly the
selection described by the claim: smallest accepted candidate among
floor / cap / proportional, else the maximum of the floor and
proportional candidates. -/
theorem C2_regime_selection (N h cp lo : ℚ) (cap : Option ℚ)
    (hd : 0 < (1 - cp) * (1 - h)) :
    solve_price_from_net_percentage N h cp lo cap =
      .ok (specSolvePct N h cp lo cap) := by
  have h1 : (1 : ℚ) - h ≠ 0 := by
    intro h0
    rw [h0, mul_zero] at hd
    exact lt_irrefl 0 hd
  have h2 : ¬((1 - cp) * (1 - h) ≤ 0) := not_le.mpr hd
  rw [solve_price_from_net_percentage, if_neg h1]
  unfold solvePctCore pctCandidates specSolvePct ppctCand pctDenom pfloorCand pcapCand
  simp only [if_neg h2]

theorem C2_regime_selection_witness :
    solve_price_from_net_percentage 9 0 (1 / 10) 0 none =
      .ok (specSolvePct 9 0 (1 / 10) 0 none) :=
  C2_regime_selection 9 0 (1 / 10) 0 none (by norm_num)

theorem computeRowV_name (p : Platform) (P : FloatVal) :
    (computeRowV p P).name = p.name := rfl

theorem buildRows_price (platforms : List Platform) (v : ℚ) :
    buildRows platforms .price_client v =
      .ok (platforms.map (fun p => computeRowV p (.fin v))) := by
  induction platforms with
  | nil => rfl
  | cons p rest ih => simp [buildRows, resolveP, ih]

theorem compute_table_price (platforms : List Platform) (v : ℚ) :
    compute_table platforms .price_client v =
      .ok ((platforms.map (fun p => computeRowV p (.fin v))).filter
            (fun r => isGdfName r.name) ++
          (platforms.map (fun p => computeRowV p (.fin v))).filter
            (fun r => !isGdfName r.name)) := by
  rw [compute_table, buildRows_price]

theorem filter_gdf_map_eq_nil {l : List Platform} (v : ℚ)
    (h : ∀ q ∈ l, isGdfName q.name = false) :
    (l.map (fun p => computeRowV p (.fin v))).filter
      (fun r => isGdfName r.name) = [] := by
  induction l with
  | nil => rfl
  | cons p rest ih =>
      have hp := h p (List.mem_cons_self _ _)
      simp only [List.map_cons, List.filter_cons, computeRowV_name, hp]
      exact ih (fun q hq => h q (List.mem_cons_of_mem _ hq))

theorem filter_not_gdf_map_eq_self {l : List Platform} (v : ℚ)
    (h : ∀ q ∈ l, isGdfName q.name = false) :
    (l.map (fun p => computeRowV p (.fin v))).filter
      (fun r => !isGdfName r.name) = l.map (fun p => computeRowV p (.fin v)) := by
  induction l with
  | nil => rfl
  | cons p rest ih =>
      have hp := h p (List.mem_cons_self _ _)
      simp only [List.map_cons, List.filter_cons, computeRowV_name, hp,
        Bool.not_false, if_pos]
      rw [ih (fun q hq => h q (List.mem_cons_of_mem _ hq))]

/-- C9: table ordering — when the input list contains exactly one
highlighted model (name starting with "gîtes de france" after
lowercasing, the code's designation of the caller's own platform), the
table places its row first and keeps every other row in input order. -/
theorem C9_gdf_first (pre post : List Platform) (g : Platform) (v : ℚ)
    (hg : isGdfName g.name = true)
    (hpre : ∀ q ∈ pre, isGdfName q.name = false)
    (hpost : ∀ q ∈ post, isGdfName q.name = false) :
    compute_table (pre ++ g :: post) .price_client v =
      .ok (computeRowV g (.fin v) ::
        (pre ++ post).map (fun p => computeRowV p (.fin v))) := by
  rw [compute_table_price]
  congr 1
  rw [List.map_append, List.map_cons, List.filter_append, List.filter_append,
    List.filter_cons, List.filter_cons]
  simp only [computeRowV_name, hg, Bool.not_true, if_pos, if_neg]
  rw [filter_gdf_map_eq_nil v hpre, filter_gdf_map_eq_nil v hpost,
    filter_not_gdf_map_eq_self v hpre, filter_not_gdf_map_eq_self v hpost,
    List.map_append]
  simp

theorem C9_gdf_first_witness :
    compute_table [⟨"Airbnb split", 3, .percentage, 15, 0, none⟩, GDF_DEFAULT,
        ⟨"Holidu", 25, .percentage, 0, 0, none⟩] .price_client 100 =
      .ok [computeRowV GDF_DEFAULT (.fin 100),
        computeRowV ⟨"Airbnb split", 3, .percentage, 15, 0, none⟩ (.fin 100),
        computeRowV ⟨"Holidu", 25, .percentage, 0, 0, none⟩ (.fin 100)] := by
  have h := C9_gdf_first [⟨"Airbnb split", 3, .percentage, 15, 0, none⟩]
    [⟨"Holidu", 25, .percentage, 0, 0, none⟩] GDF_DEFAULT 100
    (by decide)
    (by intro q hq; rcases List.mem_singleton.mp hq with rfl; decide)
    (by intro q hq; rcases List.mem_singleton.mp hq with rfl; decide)
  simpa using h

/-- C8 counterexample: a fixed-fee-0, commission-0 platform at price
`0.001` — the full-precision net payout is `0.001`, but the table's row
stores `round(0.001, 2) = 0` in every numeric column, so the table
builder does not return full floating-point precision. -/
theorem C8_counterexample :
    compute_table [⟨"A", 0, .fixed, 0, 0, none⟩] .price_client (1 / 1000) =
      .ok [⟨"A", .fin 0, .fin 0, .fin 0, .fin 0⟩] ∧
    (forward ⟨"A", 0, .fixed, 0, 0, none⟩ (1 / 1000)).netHostPayout = 1 / 1000 ∧
    (1 : ℚ) / 1000 ≠ 0 := by
  refine ⟨?_, by norm_num [forward, Platform.client_fee_amount], by norm_num⟩
  rw [compute_table_price]
  have hfl : ⌊(1 : ℚ) / 1000 * 100⌋ = 0 := by
    rw [Int.floor_eq_zero_iff]
    constructor <;> norm_num
  have hrow : computeRowV ⟨"A", 0, .fixed, 0, 0, none⟩ (.fin (1 / 1000)) =
      ⟨"A", .fin 0, .fin 0, .fin 0, .fin 0⟩ := by
    simp only [computeRowV, Platform.client_fee_amountV, fvSub, fvMulQ,
      pyRound2V, pyRound2, hfl]
    norm_num
  rw [List.map_singleton, hrow]
  rfl

/-- C8: the table builder emits each numeric field rounded to 2 decimal
places (Python `round`, ties to even) of the corresponding
forward-formula value; the full-precision values themselves are not
returned by `compute_table`. -/
theorem C8_rounded_output (p : Platform) (v : ℚ) :
    compute_table [p] .price_client v =
      .ok [{ name := p.name
             clientFee := .fin (pyRound2 ((forward p v).clientFee))
             hostFee := .fin (pyRound2 ((forward p v).hostCommissionAmount))
             net := .fin (pyRound2 ((forward p v).netHostPayout))
             price := .fin (pyRound2 v) }] := by
  rw [compute_table_price]
  have hrow : computeRowV p (.fin v) =
      { name := p.name
        clientFee := .fin (pyRound2 ((forward p v).clientFee))
        hostFee := .fin (pyRound2 ((forward p v).hostCommissionAmount))
        net := .fin (pyRound2 ((forward p v).netHostPayout))
        price := .fin (pyRound2 v) } := by
    simp [computeRowV, client_fee_amountV_fin, fvSub, fvMulQ, pyRound2V, forward]
  rw [List.map_singleton, hrow]
  cases hg : isGdfName p.name <;> simp [List.filter, hg]

/-- C7 counterexample: with `clientFeeValue = 200` (a 200% fee, allowed
by the claim's `clientFeeValue ≥ 0`), the net payout strictly decreases
from price 0 to price 1. -/
theorem C7_counterexample :
    Platform.host_net ⟨"X", 0, .percentage, 200, 0, none⟩ 1 <
      Platform.host_net ⟨"X", 0, .percentage, 200, 0, none⟩ 0 := by
  norm_num [Platform.host_net, Platform.base_before_client_fees,
    Platform.client_fee_amount]

/-- C7: monotonicity — the net host payout is non-decreasing in the
public price for every model with `hostCommissionPct ∈ [0,100]`,
`clientFeeValue ≥ 0`, and (in percentage mode) `clientFeeValue ≤ 100`
so that the fee grows no faster than the price. -/
theorem C7_monotone (p : Platform) (P1 P2 : ℚ)
    (hc0 : 0 ≤ p.host_commission_pct) (hc1 : p.host_commission_pct ≤ 100)
    (hv0 : 0 ≤ p.client_fee_value)
    (hv1 : p.client_fee_mode = .percentage → p.client_fee_value ≤ 100)
    (hP : P1 ≤ P2) :
    p.host_net P1 ≤ p.host_net P2 := by
  have hh : (0 : ℚ) ≤ 1 - p.host_commission_pct / 100 := by linarith
  have hfee : p.client_fee_amount P2 - p.client_fee_amount P1 ≤ P2 - P1 := by
    cases hm : p.client_fee_mode with
    | fixed =>
        simp only [Platform.client_fee_amount, hm]
        linarith
    | percentage =>
        have hcp1 : p.client_fee_value / 100 ≤ 1 := by linarith [hv1 hm]
        have hcp0 : (0 : ℚ) ≤ p.client_fee_value / 100 := by positivity
        have hdnn : (0 : ℚ) ≤ p.client_fee_value / 100 * (P2 - P1) :=
          mul_nonneg hcp0 (by linarith)
        have hdle : p.client_fee_value / 100 * (P2 - P1) ≤ P2 - P1 :=
          mul_le_of_le_one_left (by linarith) hcp1
        have hmax : max (P2 * (p.client_fee_value / 100)) p.client_fee_floor_eur ≤
            max (P1 * (p.client_fee_value / 100)) p.client_fee_floor_eur +
              p.client_fee_value / 100 * (P2 - P1) := by
          apply max_le
          · have h1 : P2 * (p.client_fee_value / 100) =
                P1 * (p.client_fee_value / 100) +
                  p.client_fee_value / 100 * (P2 - P1) := by ring
            rw [h1]
            exact add_le_add_right (le_max_left _ _) _
          · have h2 := le_max_right (P1 * (p.client_fee_value / 100))
              p.client_fee_floor_eur
            linarith
        cases hc : p.client_fee_cap_eur with
        | none =>
            simp only [Platform.client_fee_amount, hm, hc]
            linarith
        | some c =>
            simp only [Platform.client_fee_amount, hm, hc]
            have hmin : min (max (P2 * (p.client_fee_value / 100))
                p.client_fee_floor_eur) c ≤
                min (max (P1 * (p.client_fee_value / 100))
                  p.client_fee_floor_eur) c +
                  p.client_fee_value / 100 * (P2 - P1) := by
              calc min (max (P2 * (p.client_fee_value / 100))
                  p.client_fee_floor_eur) c ≤
                  min (max (P1 * (p.client_fee_value / 100))
                    p.client_fee_floor_eur +
                    p.client_fee_value / 100 * (P2 - P1))
                    (c + p.client_fee_value / 100 * (P2 - P1)) :=
                  min_le_min hmax (by linarith)
                _ = min (max (P1 * (p.client_fee_value / 100))
                    p.client_fee_floor_eur) c +
                    p.client_fee_value / 100 * (P2 - P1) :=
                  min_add_add_right _ _ _
            linarith
  unfold Platform.host_net Platform.base_before_client_fees
  apply mul_le_mul_of_nonneg_right _ hh
  linarith

theorem C7_monotone_witness :
    Platform.host_net ⟨"Airbnb split", 3, .percentage, 15, 0, none⟩ 100 ≤
      Platform.host_net ⟨"Airbnb split", 3, .percentage, 15, 0, none⟩ 200 :=
  C7_monotone ⟨"Airbnb split", 3, .percentage, 15, 0, none⟩ 100 200
    (by norm_num) (by norm_num) (by norm_num) (fun _ => by norm_num) (by norm_num)

theorem client_fee_amount_pct {p : Platform} (hm : p.client_fee_mode = .percentage)
    (P : ℚ) :
    p.client_fee_amount P =
      clampSpec (P * (p.client_fee_value / 100)) p.client_fee_floor_eur
        p.client_fee_cap_eur := by
  cases hc : p.client_fee_cap_eur <;>
    simp [Platform.client_fee_amount, clampSpec, hm, hc]

theorem mem_pctCandidates_iff {N h cp lo x : ℚ} {cap : Option ℚ} :
    x ∈ pctCandidates N h cp lo cap ↔
      (x = pfloorCand N h lo ∧ cp * pfloorCand N h lo ≤ lo + eps9) ∨
      (∃ c, cap = some c ∧ x = pcapCand N h c ∧ c ≤ cp * pcapCand N h c + eps9) ∨
      (x = ppctCand N h cp ∧ lo ≤ cp * ppctCand N h cp + eps9 ∧
        ∀ c, cap = some c → cp * ppctCand N h cp ≤ c + eps9) := by
  cases cap with
  | none =>
      by_cases h1 : cp * pfloorCand N h lo ≤ lo + eps9 <;>
      by_cases h3 : lo ≤ cp * ppctCand N h cp + eps9 <;>
      simp [pctCandidates, h1, h3]
  | some c =>
      by_cases h1 : cp * pfloorCand N h lo ≤ lo + eps9 <;>
      by_cases h2 : c ≤ cp * pcapCand N h c + eps9 <;>
      by_cases h3 : lo ≤ cp * ppctCand N h cp + eps9 <;>
      by_cases h4 : cp * ppctCand N h cp ≤ c + eps9 <;>
      simp [pctCandidates, h1, h2, h3, h4]

theorem solvePctCore_bounds {N h cp lo P : ℚ} {cap : Option ℚ}
    (hmem : P ∈ pctCandidates N h cp lo cap)
    (hlb : ∀ x ∈ pctCandidates N h cp lo cap, P - 1 / 1000000 ≤ x) :
    P - 1 / 1000000 ≤ solvePctCore N h cp lo cap ∧
      solvePctCore N h cp lo cap ≤ P := by
  constructor
  · exact hlb _ (minD_mem (List.ne_nil_of_mem hmem) _)
  · exact minD_le_of_mem hmem _

theorem pfloorCand_eq {P fee h : ℚ} (lo : ℚ) (hne : (1 : ℚ) - h ≠ 0) :
    pfloorCand ((P - fee) * (1 - h)) h lo = P - fee + lo := by
  rw [pfloorCand, mul_div_cancel_right₀ _ hne]

theorem pcapCand_eq {P fee h : ℚ} (c : ℚ) (hne : (1 : ℚ) - h ≠ 0) :
    pcapCand ((P - fee) * (1 - h)) h c = P - fee + c := by
  rw [pcapCand, mul_div_cancel_right₀ _ hne]

theorem ppctCand_eq {P fee h cp : ℚ} (hne : (1 : ℚ) - h ≠ 0)
    (hd : 0 < (1 - cp) * (1 - h)) :
    ppctCand ((P - fee) * (1 - h)) h cp = (P - fee) / (1 - cp) := by
  rw [ppctCand, pctDenom]
  simp only [if_neg (not_le.mpr hd)]
  rw [mul_div_mul_right _ _ hne]

theorem floor_regime_pct_bound {cp lo P : ℚ} (hcpl : (0 : ℚ) < 1 - cp)
    (hacc : lo ≤ cp * ((P - lo) / (1 - cp)) + eps9) :
    P - 1 / 1000000 ≤ (P - lo) / (1 - cp) := by
  rw [le_div_iff₀ hcpl]
  have h2 : cp * ((P - lo) / (1 - cp)) * (1 - cp) = cp * (P - lo) := by
    field_simp
  have h3 : (lo - eps9) * (1 - cp) ≤ cp * (P - lo) := by
    have h4 := mul_le_mul_of_nonneg_right (sub_le_iff_le_add.mpr hacc) hcpl.le
    rw [h2] at h4
    exact h4
  norm_num [eps9] at h3
  nlinarith [h3, hcpl]

theorem pct_regime_floor_bound {cp lo P : ℚ} (hcpl1000 : (1 : ℚ) / 1000 ≤ 1 - cp)
    (hlo : lo ≤ P * cp)
    (hacc : cp * (P - P * cp + lo) ≤ lo + eps9) :
    P - 1 / 1000000 ≤ P - P * cp + lo := by
  have h1 : (1 - cp) * (P * cp - lo) ≤ eps9 := by nlinarith [hacc]
  have h2 : (1 / 1000 : ℚ) * (P * cp - lo) ≤ (1 - cp) * (P * cp - lo) :=
    mul_le_mul_of_nonneg_right hcpl1000 (by linarith)
  have h3 : P * cp - lo ≤ 1 / 1000000 := by
    norm_num [eps9] at h1
    linarith
  linarith

theorem cap_regime_floor_bound {cp lo c P : ℚ} (hcpl1000 : (1 : ℚ) / 1000 ≤ 1 - cp)
    (hcle : c ≤ P * cp) (hloc : lo ≤ c)
    (hacc : cp * (P - c + lo) ≤ lo + eps9) :
    P - 1 / 1000000 ≤ P - c + lo := by
  have h1 : (1 - cp) * (c - lo) ≤ eps9 := by nlinarith [hacc, hcle]
  have h2 : (1 / 1000 : ℚ) * (c - lo) ≤ (1 - cp) * (c - lo) :=
    mul_le_mul_of_nonneg_right hcpl1000 (by linarith)
  have h3 : c - lo ≤ 1 / 1000000 := by
    norm_num [eps9] at h1
    linarith
  linarith

theorem pct_cand_ge_of_cap {cp c P : ℚ} (hcpl : (0 : ℚ) < 1 - cp)
    (hcle : c ≤ P * cp) :
    P ≤ (P - c) / (1 - cp) := by
  rw [le_div_iff₀ hcpl]
  nlinarith [hcle]

/-- Central round-trip bound for the percentage inverse: when
`0 ≤ h < 1`, `0 ≤ cp ≤ 0.999` and `floor ≤ cap`, solving for the net
payout produced by the forward clamp at price `P` returns a price in
`[P - 1e-6, P]`. -/
theorem pct_roundtrip (h cp lo P : ℚ) (cap : Option ℚ)
    (hh1 : h < 1) (hcp0 : 0 ≤ cp) (hcp1 : cp ≤ 999 / 1000)
    (hlc : ∀ c, cap = some c → lo ≤ c) :
    P - 1 / 1000000 ≤
      solvePctCore ((P - clampSpec (P * cp) lo cap) * (1 - h)) h cp lo cap ∧
    solvePctCore ((P - clampSpec (P * cp) lo cap) * (1 - h)) h cp lo cap ≤ P := by
  have hne : (1 : ℚ) - h ≠ 0 := ne_of_gt (by linarith)
  have hcpl : (0 : ℚ) < 1 - cp := by linarith
  have hcpl1000 : (1 : ℚ) / 1000 ≤ 1 - cp := by linarith
  have hd : 0 < (1 - cp) * (1 - h) := mul_pos hcpl (by linarith)
  have heps9 : (0 : ℚ) < eps9 := by norm_num [eps9]
  have heps6 : (0 : ℚ) < 1 / 1000000 := by norm_num
  cases cap with
  | none =>
      have hF : clampSpec (P * cp) lo none = max (P * cp) lo := rfl
      rcases le_total (P * cp) lo with hcase | hcase
      · have hFlo : clampSpec (P * cp) lo none = lo := by
          rw [hF, max_eq_right hcase]
        rw [hFlo]
        have hPf : pfloorCand ((P - lo) * (1 - h)) h lo = P := by
          rw [pfloorCand_eq lo hne]; ring
        have hPp : ppctCand ((P - lo) * (1 - h)) h cp = (P - lo) / (1 - cp) :=
          ppctCand_eq hne hd
        have hmem : P ∈ pctCandidates ((P - lo) * (1 - h)) h cp lo none := by
          apply mem_pctCandidates_iff.mpr
          refine Or.inl ⟨hPf.symm, ?_⟩
          rw [hPf, mul_comm]
          linarith
        apply solvePctCore_bounds hmem
        intro x hx
        rcases mem_pctCandidates_iff.mp hx with ⟨rfl, _⟩ | ⟨c, hc, _, _⟩ |
          ⟨rfl, haccL, _⟩
        · rw [hPf]; linarith
        · exact absurd hc (by simp)
        · rw [hPp] at haccL ⊢
          exact floor_regime_pct_bound hcpl haccL
      · have hFr : clampSpec (P * cp) lo none = P * cp := by
          rw [hF, max_eq_left hcase]
        rw [hFr]
        have hPf : pfloorCand ((P - P * cp) * (1 - h)) h lo = P - P * cp + lo :=
          pfloorCand_eq lo hne
        have hPp : ppctCand ((P - P * cp) * (1 - h)) h cp = P := by
          rw [ppctCand_eq hne hd]
          rw [show P - P * cp = P * (1 - cp) by ring]
          exact mul_div_cancel_right₀ P (ne_of_gt hcpl)
        have hmem : P ∈ pctCandidates ((P - P * cp) * (1 - h)) h cp lo none := by
          apply mem_pctCandidates_iff.mpr
          refine Or.inr (Or.inr ⟨hPp.symm, ?_, ?_⟩)
          · rw [hPp, mul_comm]; linarith
          · intro c hc; exact absurd hc (by simp)
        apply solvePctCore_bounds hmem
        intro x hx
        rcases mem_pctCandidates_iff.mp hx with ⟨rfl, hacc⟩ | ⟨c, hc, _, _⟩ |
          ⟨rfl, _, _⟩
        · rw [hPf] at hacc ⊢
          exact pct_regime_floor_bound hcpl1000 hcase hacc
        · exact absurd hc (by simp)
        · rw [hPp]; linarith
  | some c =>
      have hloc : lo ≤ c := hlc c rfl
      have hF : clampSpec (P * cp) lo (some c) = min (max (P * cp) lo) c := rfl
      rcases le_total (P * cp) lo with hcase | hcase
      · have hFlo : clampSpec (P * cp) lo (some c) = lo := by
          rw [hF, max_eq_right hcase, min_eq_left hloc]
        rw [hFlo]
        have hPf : pfloorCand ((P - lo) * (1 - h)) h lo = P := by
          rw [pfloorCand_eq lo hne]; ring
        have hPcap : pcapCand ((P - lo) * (1 - h)) h c = P - lo + c :=
          pcapCand_eq c hne
        have hPp : ppctCand ((P - lo) * (1 - h)) h cp = (P - lo) / (1 - cp) :=
          ppctCand_eq hne hd
        have hmem : P ∈ pctCandidates ((P - lo) * (1 - h)) h cp lo (some c) := by
          apply mem_pctCandidates_iff.mpr
          refine Or.inl ⟨hPf.symm, ?_⟩
          rw [hPf, mul_comm]
          linarith
        apply solvePctCore_bounds hmem
        intro x hx
        rcases mem_pctCandidates_iff.mp hx with ⟨rfl, _⟩ | ⟨c', hc', rfl, _⟩ |
          ⟨rfl, haccL, _⟩
        · rw [hPf]; linarith
        · obtain rfl : c = c' := Option.some.inj hc'
          rw [hPcap]
          linarith
        · rw [hPp] at haccL ⊢
          exact floor_regime_pct_bound hcpl haccL
      · rcases le_total (P * cp) c with hcase2 | hcase2
        · have hFr : clampSpec (P * cp) lo (some c) = P * cp := by
            rw [hF, max_eq_left hcase, min_eq_left hcase2]
          rw [hFr]
          have hPf : pfloorCand ((P - P * cp) * (1 - h)) h lo =
              P - P * cp + lo := pfloorCand_eq lo hne
          have hPcap : pcapCand ((P - P * cp) * (1 - h)) h c =
              P - P * cp + c := pcapCand_eq c hne
          have hPp : ppctCand ((P - P * cp) * (1 - h)) h cp = P := by
            rw [ppctCand_eq hne hd]
            rw [show P - P * cp = P * (1 - cp) by ring]
            exact mul_div_cancel_right₀ P (ne_of_gt hcpl)
          have hmem : P ∈ pctCandidates ((P - P * cp) * (1 - h)) h cp lo
              (some c) := by
            apply mem_pctCandidates_iff.mpr
            refine Or.inr (Or.inr ⟨hPp.symm, ?_, ?_⟩)
            · rw [hPp, mul_comm]; linarith
            · intro c' hc'
              obtain rfl : c = c' := Option.some.inj hc'
              rw [hPp, mul_comm]
              linarith
          apply solvePctCore_bounds hmem
          intro x hx
          rcases mem_pctCandidates_iff.mp hx with ⟨rfl, hacc⟩ |
            ⟨c', hc', rfl, _⟩ | ⟨rfl, _, _⟩
          · rw [hPf] at hacc ⊢
            exact pct_regime_floor_bound hcpl1000 hcase hacc
          · obtain rfl : c = c' := Option.some.inj hc'
            rw [hPcap]
            linarith
          · rw [hPp]; linarith
        · have hFc : clampSpec (P * cp) lo (some c) = c := by
            rw [hF, max_eq_left hcase, min_eq_right hcase2]
          rw [hFc]
          have hPf : pfloorCand ((P - c) * (1 - h)) h lo = P - c + lo :=
            pfloorCand_eq lo hne
          have hPcap : pcapCand ((P - c) * (1 - h)) h c = P := by
            rw [pcapCand_eq c hne]; ring
          have hPp : ppctCand ((P - c) * (1 - h)) h cp = (P - c) / (1 - cp) :=
            ppctCand_eq hne hd
          have hmem : P ∈ pctCandidates ((P - c) * (1 - h)) h cp lo
              (some c) := by
            apply mem_pctCandidates_iff.mpr
            refine Or.inr (Or.inl ⟨c, rfl, hPcap.symm, ?_⟩)
            rw [hPcap, mul_comm]
            linarith
          apply solvePctCore_bounds hmem
          intro x hx
          rcases mem_pctCandidates_iff.mp hx with ⟨rfl, hacc⟩ |
            ⟨c', hc', rfl, _⟩ | ⟨rfl, _, _⟩
          · rw [hPf] at hacc ⊢
            exact cap_regime_floor_bound hcpl1000 hcase2 hloc hacc
          · obtain rfl : c = c' := Option.some.inj hc'
            rw [hPcap]
            linarith
          · rw [hPp]
            have h5 := pct_cand_ge_of_cap hcpl hcase2
            linarith

/-- C1 counterexample: the model `h = 0`, percentage fee 100%, floor 0,
no cap is valid under the claim's hypotheses (`h ≠ 1`, value `≥ 0`) and
`P = 1 ≥ 0`, yet the forward net payout is `0` and the inverse returns
price `0`, so the round trip misses the original price by `1`. -/
theorem C1_counterexample :
    price_from_net ⟨"X", 0, .percentage, 100, 0, none⟩
        (Platform.host_net ⟨"X", 0, .percentage, 100, 0, none⟩ 1) =
      .ok (.fin 0) ∧
    ¬ |(0 : ℚ) - 1| ≤ 1 / 1000000 := by
  constructor
  · have hnet : Platform.host_net ⟨"X", 0, .percentage, 100, 0, none⟩ 1 = 0 := by
      norm_num [Platform.host_net, Platform.base_before_client_fees,
        Platform.client_fee_amount]
    rw [hnet]
    norm_num [price_from_net, solve_price_from_net_percentage, solvePctCore,
      pctCandidates, pfloorCand, ppctCand, pctDenom, minD, eps9, eps12,
      Except.map]
  · norm_num

/-- C1: round-trip — for a valid model (`hostCommissionPct ∈ [0,100)`,
`clientFeeValue ≥ 0`, `floor ≤ cap`, and in percentage mode
`clientFeeValue ≤ 99.9` so that the solver's `1e-9` tolerance slack
`1e-9/(1-cp)` stays below `1e-6`) and any price `P ≥ 0`, inverting the
forward net payout recovers the public price within `1e-6`. -/
theorem C1_round_trip (p : Platform) (P : ℚ)
    (hc0 : 0 ≤ p.host_commission_pct) (hc1 : p.host_commission_pct ≤ 100)
    (hcne : p.host_commission_pct ≠ 100)
    (hv0 : 0 ≤ p.client_fee_value)
    (hv1 : p.client_fee_mode = .percentage → p.client_fee_value ≤ 999 / 10)
    (hfc : p.client_fee_mode = .percentage →
      ∀ c, p.client_fee_cap_eur = some c → p.client_fee_floor_eur ≤ c)
    (hP : 0 ≤ P) :
    ∃ Q, price_from_net p (p.host_net P) = .ok (.fin Q) ∧
      |Q - P| ≤ 1 / 1000000 := by
  have hh1 : p.host_commission_pct / 100 < 1 := by
    rcases lt_or_eq_of_le hc1 with hlt | heq
    · linarith
    · exact absurd heq hcne
  have hne : (1 : ℚ) - p.host_commission_pct / 100 ≠ 0 := ne_of_gt (by linarith)
  cases hm : p.client_fee_mode with
  | fixed =>
      refine ⟨P, ?_, by norm_num⟩
      have hnet : p.host_net P =
          (P - p.client_fee_value) * (1 - p.host_commission_pct / 100) := by
        unfold Platform.host_net Platform.base_before_client_fees
        simp [Platform.client_fee_amount, hm]
      simp only [price_from_net, hm]
      rw [if_neg hne, hnet, mul_div_cancel_right₀ _ hne]
      norm_num
  | percentage =>
      have hcp1 : p.client_fee_value / 100 ≤ 999 / 1000 := by linarith [hv1 hm]
      have hcp0 : (0 : ℚ) ≤ p.client_fee_value / 100 := by positivity
      have hnet : p.host_net P =
          (P - clampSpec (P * (p.client_fee_value / 100)) p.client_fee_floor_eur
            p.client_fee_cap_eur) * (1 - p.host_commission_pct / 100) := by
        unfold Platform.host_net Platform.base_before_client_fees
        rw [client_fee_amount_pct hm P]
      have hb := pct_roundtrip (p.host_commission_pct / 100)
        (p.client_fee_value / 100) p.client_fee_floor_eur P p.client_fee_cap_eur
        hh1 hcp0 hcp1 (fun c hc => hfc hm c hc)
      refine ⟨solvePctCore ((P - clampSpec (P * (p.client_fee_value / 100))
          p.client_fee_floor_eur p.client_fee_cap_eur) *
          (1 - p.host_commission_pct / 100)) (p.host_commission_pct / 100)
          (p.client_fee_value / 100) p.client_fee_floor_eur
          p.client_fee_cap_eur, ?_, ?_⟩
      · simp only [price_from_net, hm, solve_price_from_net_percentage]
        rw [hnet, if_neg hne]
        rfl
      · rw [abs_le]
        exact ⟨by linarith [hb.1], by linarith [hb.2]⟩

theorem C1_round_trip_witness :
    ∃ Q, price_from_net floorCapModel (floorCapModel.host_net 300) =
        .ok (.fin Q) ∧ |Q - 300| ≤ 1 / 1000000 :=
  C1_round_trip floorCapModel 300 (by norm_num [floorCapModel])
    (by norm_num [floorCapModel]) (by norm_num [floorCapModel])
    (by norm_num [floorCapModel])
    (by intro _; norm_num [floorCapModel])
    (by
      intro _ c hc
      simp only [floorCapModel, Option.some.injEq] at hc
      rw [← hc]
      norm_num [floorCapModel])
    (by norm_num)

end Simulateur
